import Mathlib

/-!
Shallow embedding of the Design Generation & Adaptive Sampling Engine of the
mturk_task_v2 repository (src/db.py and src/generate/utils.py), together with
theorems settling the claims about it.

Image identifiers are modelled as natural numbers except where row-key prefix
scans matter (the pair-history index), where they are strings as in the source.
-/

namespace MTurk

/-- Modelled from the spec: `pair_to_tuple` lives in the absent `conf.py`; per
`db._get_pair_key` ("sorted alphabetically") and §3 of the spec ("keyed by the
two identifiers in a canonical (e.g., lexicographic) order") it returns the
two identifiers as a pair in canonical sorted order. -/
def pair_to_tuple {α : Type} [LinearOrder α] (a b : α) : α × α :=
  if a ≤ b then (a, b) else (b, a)

/-- `itertools.combinations(c, 2)`: all ordered-position pairs of a list, in
the order Python enumerates them. -/
def pairs2 {α : Type} : List α → List (α × α)
  | [] => []
  | x :: xs => xs.map (fun y => (x, y)) ++ pairs2 xs

/-- `itertools.combinations(l, t)`: all length-`t` subsequences of `l`, in the
order Python enumerates them (lexicographic by position when `l` is sorted). -/
def combinations : Nat → List Nat → List (List Nat)
  | 0, _ => [[]]
  | _ + 1, [] => []
  | t + 1, x :: xs =>
      (combinations t xs).map (fun c => x :: c) ++ combinations (t + 1) xs

/-- `np.min` of a list of counters (the lists we apply it to are nonempty, as
in the source; the empty case is given a junk value). -/
def minOcc : List Nat → Nat
  | [] => 0
  | x :: xs => xs.foldl min x

/-- `np.max` of a list of counters (same convention as `minOcc`). -/
def maxOcc : List Nat → Nat
  | [] => 0
  | x :: xs => xs.foldl max x

/-- `for i in c: occ[i] += 1` on the occurrence-counter array. -/
def incAll (occ : List Nat) (c : List Nat) : List Nat :=
  c.foldl (fun o i => o.set i (o.getD i 0 + 1)) occ

/-- `db._tuple_permitted` with `conn=None` (the only way `gen_design` calls
it): every unordered pair of the candidate tuple must be absent from the
in-memory observed-pair set. -/
def tuple_permitted (im_tuple : List Nat) (ex_pairs : Finset (Nat × Nat)) : Bool :=
  (pairs2 im_tuple).all fun p => !decide (pair_to_tuple p.1 p.2 ∈ ex_pairs)

/-- The in-memory state of one `Get.gen_design` run: the per-index occurrence
counters `occ`, the observed-pair set `obs` (seeded from the pair history),
and the design built so far. -/
structure DState where
  occ : List Nat
  obs : Finset (Nat × Nat)
  design : List (List Nat)
deriving DecidableEq

/-- The body of `Get.gen_design`'s inner loop for one candidate combination
`c` of image indices in round `iocc`.  `Sum.inr` models the early
`return design` once `np.min(occ) == j`. -/
def designStep (images : List Nat) (j : Nat) (acc : DState ⊕ List (List Nat))
    (iocc : Nat) (c : List Nat) : DState ⊕ List (List Nat) :=
  match acc with
  | .inr d => .inr d
  | .inl st =>
    if minOcc st.occ = j then .inr st.design
    else
      let cur_tuple := c.map fun x => images.getD x 0
      if ¬ tuple_permitted cur_tuple st.obs then .inl st
      else
        let occ_arr := c.map fun i => st.occ.getD i 0
        if maxOcc occ_arr > iocc then .inl st
        else if minOcc occ_arr ≥ j then .inl st
        else
          .inl { occ := incAll st.occ c,
                 obs := st.obs ∪
                   ((pairs2 cur_tuple).map fun p => pair_to_tuple p.1 p.2).toFinset,
                 design := st.design ++ [cur_tuple] }

/-- The inner `for c in comb(range(n), t)` loop of `Get.gen_design`. -/
def designInner (images : List Nat) (j iocc : Nat) (cands : List (List Nat))
    (acc : DState ⊕ List (List Nat)) : DState ⊕ List (List Nat) :=
  cands.foldl (fun a c => designStep images j a iocc c) acc

/-- The outer `for iocc in range(0, t + j)` loop of `Get.gen_design`. -/
def designRoundsLoop (images : List Nat) (j : Nat) (cands : List (List Nat)) :
    List Nat → (DState ⊕ List (List Nat)) → DState ⊕ List (List Nat)
  | [], acc => acc
  | iocc :: rest, acc =>
      designRoundsLoop images j cands rest (designInner images j iocc cands acc)

/-- The search of `Get.gen_design` (db.py lines 976-1020) after the images
have been fetched and shuffled: `images` is the (already shuffled) candidate
list, `pre` the pre-existing pair set returned by `_get_preexisting_pairs`.
Returns `none` exactly on the `return None` path ("Could not generate
design"). -/
def genDesignCore (images : List Nat) (n t j : Nat) (pre : Finset (Nat × Nat)) :
    Option (List (List Nat)) :=
  let init : DState := ⟨List.replicate n 0, pre, []⟩
  match designRoundsLoop images j (combinations t (List.range n))
      (List.range (t + j)) (.inl init) with
  | .inr d => some d
  | .inl st => if minOcc st.occ ≥ j then some st.design else none

/-- `Get.gen_design` with its one random ingredient, `np.random.shuffle`, made
explicit: `shuffle` stands for the permutation the RNG applied to the fetched
image list. Everything after the shuffle is `genDesignCore`. -/
def gen_design (shuffle : List Nat → List Nat) (images : List Nat) (n t j : Nat)
    (pre : Finset (Nat × Nat)) : Option (List (List Nat)) :=
  genDesignCore (shuffle images) n t j pre

/-- State of one `generate.utils.get_design` run: the pair observation matrix
`obs` (a multiset because `obs[x1, x2] += 1` counts), the occurrence counters
`occ`, and the combinations accepted so far. -/
structure UState where
  obs : Multiset (Nat × Nat)
  occ : List Nat
  combs : List (List Nat)

/-- The body of `generate.utils.get_design`'s inner loop for one candidate
combination `c` in round `allvio`.  Note that the source's pair check

    for x1, x2 in comb(c, 2):
        if obs[x1, x2]:
            continue

`continue`s the *inner* `for` loop, so it never affects the candidate: it is
dead code, and the embedding accordingly has no pair test here. -/
def utilsStep (j : Nat) (acc : UState ⊕ List (List Nat)) (allvio : Nat)
    (c : List Nat) : UState ⊕ List (List Nat) :=
  match acc with
  | .inr d => .inr d
  | .inl st =>
    if minOcc st.occ = j then .inr st.combs
    else
      let cvio := (c.map fun i => st.occ.getD i 0 + 1 - j).sum
      if cvio > allvio then .inl st
      else
        .inl { obs := st.obs + ↑(pairs2 c),
               occ := incAll st.occ c,
               combs := st.combs ++ [c] }

/-- The inner `for c in comb(range(n), t)` loop of `generate.utils.get_design`. -/
def utilsInner (j allvio : Nat) (cands : List (List Nat))
    (acc : UState ⊕ List (List Nat)) : UState ⊕ List (List Nat) :=
  cands.foldl (fun a c => utilsStep j a allvio c) acc

/-- The outer `for allvio in range(t)` loop of `generate.utils.get_design`. -/
def utilsRoundsLoop (j : Nat) (cands : List (List Nat)) :
    List Nat → (UState ⊕ List (List Nat)) → UState ⊕ List (List Nat)
  | [], acc => acc
  | allvio :: rest, acc =>
      utilsRoundsLoop j cands rest (utilsInner j allvio cands acc)

/-- `generate.utils.get_design(n, t, j)` (generate/utils.py lines 40-62). -/
def get_design (n t j : Nat) : Option (List (List Nat)) :=
  let init : UState := ⟨0, List.replicate n 0, []⟩
  match utilsRoundsLoop j (combinations t (List.range n)) (List.range t)
      (.inl init) with
  | .inr d => some d
  | .inl st => if minOcc st.occ ≥ j then some st.combs else none

/-- Number of tuples of a design containing both members of an unordered
pair. -/
def tuplesContaining (p : Nat × Nat) (d : List (List Nat)) : Nat :=
  d.countP fun tup =>
    ((pairs2 tup).map fun q => pair_to_tuple q.1 q.2).any
      fun q => decide (q = pair_to_tuple p.1 p.2)

/-- The flattened candidate enumeration of `Get.gen_design`: rounds `iocc`
from `0` to `t + j - 1`, and within each round every size-`t` combination of
the candidate indices. -/
def allCandidates (n t j : Nat) : List (Nat × List Nat) :=
  (List.range (t + j)).flatMap fun iocc =>
    (combinations t (List.range n)).map fun c => (iocc, c)

/-- The Design Builder as claim C4 describes its enumeration: identical to
`genDesignCore` except that the relaxation rounds `iocc` run "from the group
size up to `t + j`", i.e. over `t, t+1, ..., t+j` instead of the source's
`range(0, t + j)`. -/
def genDesignClaimRounds (images : List Nat) (n t j : Nat)
    (pre : Finset (Nat × Nat)) : Option (List (List Nat)) :=
  let init : DState := ⟨List.replicate n 0, pre, []⟩
  match designRoundsLoop images j (combinations t (List.range n))
      (List.range' t (j + 1)) (.inl init) with
  | .inr d => some d
  | .inl st => if minOcc st.occ ≥ j then some st.design else none

/-! ### Basic facts about the search ingredients -/

theorem foldl_min_le_init (as : List Nat) (a : Nat) : as.foldl min a ≤ a := by
  induction as generalizing a with
  | nil => exact le_refl a
  | cons b bs ih => exact le_trans (ih (min a b)) (min_le_left a b)

theorem foldl_min_le_mem {as : List Nat} {x : Nat} (a : Nat) (hx : x ∈ as) :
    as.foldl min a ≤ x := by
  induction as generalizing a with
  | nil => cases hx
  | cons b bs ih =>
    rcases List.mem_cons.mp hx with rfl | hxs
    · exact le_trans (foldl_min_le_init bs (min a x)) (min_le_right a x)
    · exact ih (min a b) hxs

theorem minOcc_le_of_mem {l : List Nat} {x : Nat} (hx : x ∈ l) : minOcc l ≤ x := by
  match l with
  | [] => cases hx
  | a :: as =>
    rcases List.mem_cons.mp hx with rfl | hxs
    · exact foldl_min_le_init as x
    · exact foldl_min_le_mem a hxs

theorem init_le_foldl_max (as : List Nat) (a : Nat) : a ≤ as.foldl max a := by
  induction as generalizing a with
  | nil => exact le_refl a
  | cons b bs ih => exact le_trans (le_max_left a b) (ih (max a b))

theorem mem_le_foldl_max {as : List Nat} {x : Nat} (a : Nat) (hx : x ∈ as) :
    x ≤ as.foldl max a := by
  induction as generalizing a with
  | nil => cases hx
  | cons b bs ih =>
    rcases List.mem_cons.mp hx with rfl | hxs
    · exact le_trans (le_max_right a x) (init_le_foldl_max bs (max a x))
    · exact ih (max a b) hxs

theorem le_maxOcc_of_mem {l : List Nat} {x : Nat} (hx : x ∈ l) : x ≤ maxOcc l := by
  match l with
  | [] => cases hx
  | a :: as =>
    rcases List.mem_cons.mp hx with rfl | hxs
    · exact init_le_foldl_max as x
    · exact mem_le_foldl_max a hxs

theorem combinations_sublist {t : Nat} {l c : List Nat}
    (hc : c ∈ combinations t l) : c.Sublist l := by
  induction l generalizing t c with
  | nil =>
    match t with
    | 0 => simp only [combinations, List.mem_singleton] at hc; subst hc; exact .slnil
    | _ + 1 => cases hc
  | cons x xs ih =>
    match t with
    | 0 => simp only [combinations, List.mem_singleton] at hc; subst hc; exact (List.nil_sublist _)
    | t + 1 =>
      simp only [combinations, List.mem_append, List.mem_map] at hc
      rcases hc with ⟨c', hc', rfl⟩ | hc
      · exact (ih hc').cons₂ x
      · exact (ih hc).cons x

theorem combinations_length {t : Nat} {l c : List Nat}
    (hc : c ∈ combinations t l) : c.length = t := by
  induction l generalizing t c with
  | nil =>
    match t with
    | 0 => simp only [combinations, List.mem_singleton] at hc; subst hc; rfl
    | _ + 1 => cases hc
  | cons x xs ih =>
    match t with
    | 0 => simp only [combinations, List.mem_singleton] at hc; subst hc; rfl
    | t + 1 =>
      simp only [combinations, List.mem_append, List.mem_map] at hc
      rcases hc with ⟨c', hc', rfl⟩ | hc
      · simpa using ih hc'
      · exact ih hc

theorem incAll_length (occ c : List Nat) : (incAll occ c).length = occ.length := by
  induction c generalizing occ with
  | nil => rfl
  | cons a as ih => simpa [incAll, List.foldl_cons] using ih (occ.set a (occ.getD a 0 + 1))

theorem getD_set_ne (l : List Nat) {i j : Nat} (v : Nat) (h : i ≠ j) :
    (l.set i v).getD j 0 = l.getD j 0 := by
  simp [List.getD, List.getElem?_set_ne h]

theorem getD_set_self (l : List Nat) {i : Nat} (v : Nat) (h : i < l.length) :
    (l.set i v).getD i 0 = v := by
  simp [List.getD, List.getElem?_set_self, h]

theorem incAll_getD {occ c : List Nat} (hnd : c.Nodup)
    (hlt : ∀ x ∈ c, x < occ.length) {i : Nat} :
    (incAll occ c).getD i 0 = occ.getD i 0 + (if i ∈ c then 1 else 0) := by
  induction c generalizing occ with
  | nil => simp [incAll]
  | cons a as ih =>
    have ha : a < occ.length := hlt a (List.mem_cons_self a as)
    have step : incAll occ (a :: as) = incAll (occ.set a (occ.getD a 0 + 1)) as := rfl
    rw [step, ih (List.nodup_cons.mp hnd).2
      (fun x hx => by rw [List.length_set]; exact hlt x (List.mem_cons_of_mem a hx))]
    by_cases hia : i = a
    · subst hia
      have hnotas : i ∉ as := (List.nodup_cons.mp hnd).1
      rw [getD_set_self occ _ ha, if_neg hnotas, if_pos (List.mem_cons_self i as)]
    · rw [getD_set_ne occ _ (fun h => hia h.symm)]
      by_cases hias : i ∈ as
      · rw [if_pos hias, if_pos (List.mem_cons_of_mem a hias)]
      · rw [if_neg hias, if_neg (by simp [hia, hias])]

theorem designInner_eq_foldl (images : List Nat) (j iocc : Nat)
    (cands : List (List Nat)) (acc : DState ⊕ List (List Nat)) :
    designInner images j iocc cands acc =
      (cands.map fun c => (iocc, c)).foldl
        (fun a p => designStep images j a p.1 p.2) acc := by
  induction cands generalizing acc with
  | nil => rfl
  | cons c cs ih => simpa [designInner, List.foldl_cons] using ih _

theorem designRoundsLoop_eq_foldl (images : List Nat) (j : Nat)
    (cands : List (List Nat)) (rounds : List Nat)
    (acc : DState ⊕ List (List Nat)) :
    designRoundsLoop images j cands rounds acc =
      (rounds.flatMap fun iocc => cands.map fun c => (iocc, c)).foldl
        (fun a p => designStep images j a p.1 p.2) acc := by
  induction rounds generalizing acc with
  | nil => rfl
  | cons iocc rest ih =>
    rw [designRoundsLoop, ih, List.flatMap_cons, List.foldl_append,
      designInner_eq_foldl]

theorem combinations_pairwise_lex {l : List Nat} (t : Nat)
    (hl : l.Pairwise (· < ·)) :
    (combinations t l).Pairwise (List.Lex (· < ·)) := by
  induction l generalizing t with
  | nil =>
    match t with
    | 0 => exact List.pairwise_singleton _ _
    | _ + 1 => exact List.Pairwise.nil
  | cons x xs ih =>
    match t with
    | 0 => exact List.pairwise_singleton _ _
    | t + 1 =>
      have hxlt : ∀ y ∈ xs, x < y := (List.pairwise_cons.mp hl).1
      have hxs : xs.Pairwise (· < ·) := (List.pairwise_cons.mp hl).2
      rw [combinations, List.pairwise_append]
      refine ⟨?_, ih (t + 1) hxs, ?_⟩
      · rw [List.pairwise_map]
        exact (ih t hxs).imp fun h => List.Lex.cons h
      · intro a ha b hb
        rcases List.mem_map.mp ha with ⟨c1, _, rfl⟩
        match b, combinations_length hb with
        | y :: ys, _ =>
          exact List.Lex.rel (hxlt y ((combinations_sublist hb).mem
            (List.mem_cons_self y ys)))

theorem designStep_rejects_over_cap (images : List Nat) (j : Nat) (st : DState)
    (iocc : Nat) (c : List Nat) (hmin : minOcc st.occ ≠ j)
    (hover : ∃ i ∈ c, iocc < st.occ.getD i 0) :
    designStep images j (.inl st) iocc c = .inl st := by
  rcases hover with ⟨i, hi, hlt⟩
  have hmax : iocc < maxOcc (c.map fun i => st.occ.getD i 0) :=
    lt_of_lt_of_le hlt (le_maxOcc_of_mem (List.mem_map.mpr ⟨i, hi, rfl⟩))
  by_cases hperm : tuple_permitted (c.map fun x => images.getD x 0) st.obs
  · simp only [List.getD_eq_getElem?_getD] at hperm hmax
    simp [designStep, hmin, hperm, hmax]
  · simp only [List.getD_eq_getElem?_getD] at hperm
    simp [designStep, hmin, hperm]

example : combinations 2 (List.range 4) =
    [[0, 1], [0, 2], [0, 3], [1, 2], [1, 3], [2, 3]] := by decide

/-! ### The Sampling Allocator (`Get.get_n_images`, db.py lines 912-950) -/

/-- A row of the image table as the Sampling Allocator sees it: the
`metadata:is_active` flag, the (pre-evaluated) outcome of the attribute
predicate `attribute_image_filter(image_attributes)` on this row, and the
`stats:sampling_surplus` counter. -/
structure SImage where
  active : Bool
  attrsOk : Bool
  surplus : Int
deriving DecidableEq

/-- The scan of active images matching the attribute predicate, in table
order; its length is `get_n_active_images_count` and
`get_active_image_scanner` cycles over it. -/
def activePool (tbl : List (Nat × SImage)) : List Nat :=
  (tbl.filter fun kr => kr.2.active && kr.2.attrsOk).map fun kr => kr.1

/-- `table.counter_get(im_id, 'stats:sampling_surplus')` (HBase counters
read as 0 when absent). -/
def surplusOf (tbl : List (Nat × SImage)) (iid : Nat) : Int :=
  ((tbl.find? fun kr => kr.1 == iid).map fun kr => kr.2.surplus).getD 0

/-- `table.counter_dec(im_id, 'stats:sampling_surplus')`. -/
def dec_surplus (tbl : List (Nat × SImage)) (iid : Nat) : List (Nat × SImage) :=
  tbl.map fun kr =>
    if kr.1 = iid then (kr.1, { kr.2 with surplus := kr.2.surplus - 1 }) else kr

/-- The body of `Get.get_n_images`'s sampling loop once an image has passed
the acceptance draw:

    if is_practice:
        images.add(im_id)
    sd = table.counter_get(im_id, 'stats:sampling_surplus')
    if sd <= 0:
        images.add(im_id)
    else:
        table.counter_dec(im_id, 'stats:sampling_surplus')

Returns the updated result set and table. -/
def sampleStep (isPractice : Bool) (im : Nat) (images : Finset Nat)
    (tbl : List (Nat × SImage)) : Finset Nat × List (Nat × SImage) :=
  let images1 := if isPractice then insert im images else images
  let sd := surplusOf tbl im
  if sd ≤ 0 then (insert im images1, tbl)
  else (images1, dec_surplus tbl im)

/-- The `while len(images) < n` loop of `Get.get_n_images`.  `accept k`
abstracts the Bernoulli draw `np.random.rand() <= prob` (with
`prob = n / count`) at the `k`-th generator step; the wrap-around scanner
yields `pool[k % len(pool)]`.  `fuel` bounds the number of unrolled
iterations — the source's `while` loop is unbounded, so running out of fuel
(`none`) is a modelling artifact, not a source outcome. -/
def getNImagesLoop (pool : List Nat) (accept : Nat → Bool) (isPractice : Bool)
    (n : Nat) : Nat → Nat → Finset Nat → List (Nat × SImage) →
      Option (Finset Nat × List (Nat × SImage))
  | 0, _, _, _ => none
  | fuel + 1, k, images, tbl =>
    if n ≤ images.card then some (images, tbl)
    else
      let im := pool.getD (k % pool.length) 0
      if accept k then
        let st := sampleStep isPractice im images tbl
        getNImagesLoop pool accept isPractice n fuel (k + 1) st.1 st.2
      else getNImagesLoop pool accept isPractice n fuel (k + 1) images tbl

/-- The outcome of `Get.get_n_images`: `insufficient` is the early
`return None` ("Insufficient number of active images"), `ok` a successful
list of image IDs (kept as the set the source builds), `noFuel` the
modelling artifact of a loop that has not terminated within the fuel. -/
inductive SampleResult where
  | insufficient (tbl : List (Nat × SImage))
  | noFuel
  | ok (ids : Finset Nat) (tbl : List (Nat × SImage))
deriving DecidableEq

/-- `Get.get_n_images(n, image_attributes, is_practice)`. -/
def get_n_images (fuel n : Nat) (tbl : List (Nat × SImage))
    (accept : Nat → Bool) (isPractice : Bool) : SampleResult :=
  let count := (activePool tbl).length
  if n > count then .insufficient tbl
  else
    match getNImagesLoop (activePool tbl) accept isPractice n fuel 0 ∅ tbl with
    | none => .noFuel
    | some (ids, t2) => .ok ids t2

/-! ### Image activation (`Set.activate_images`, db.py lines 1699-1715) -/

/-- A row of the image table for the activation path: the
`metadata:is_active` flag and the `stats:num_times_seen` and
`stats:sampling_surplus` counters. -/
structure ImRow where
  active : Bool
  timesSeen : Int
  surplus : Int
deriving DecidableEq

/-- `Set._table_has_row` on the assoc-list table model. -/
def table_has_row (tbl : List (Nat × ImRow)) (iid : Nat) : Bool :=
  tbl.any fun kr => kr.1 == iid

/-- One `b.put(iid, {'metadata:is_active': TRUE})` of `Set.activate_images`. -/
def put_is_active (tbl : List (Nat × ImRow)) (iid : Nat) : List (Nat × ImRow) :=
  tbl.map fun kr =>
    if kr.1 = iid then (kr.1, { kr.2 with active := true }) else kr

/-- `Set._reset_sampling_counts`: scan *all* active images (no attribute
filter) and set each one's `stats:sampling_surplus` counter to its current
`stats:num_times_seen`. -/
def reset_sampling_counts (tbl : List (Nat × ImRow)) : List (Nat × ImRow) :=
  tbl.map fun kr =>
    if kr.2.active then (kr.1, { kr.2 with surplus := kr.2.timesSeen }) else kr

/-- `Set.activate_images`: mark each listed image row active (skipping IDs
with no row), send the batch, then `_reset_sampling_counts()`. -/
def activate_images (tbl : List (Nat × ImRow)) (ids : List Nat) :
    List (Nat × ImRow) :=
  reset_sampling_counts
    (ids.foldl (fun t iid => if table_has_row t iid then put_is_active t iid else t)
      tbl)

/-! ### The Pair History Index (`db._get_preexisting_pairs`) and the pair
store written by `Set.register_task`

Image identifiers are strings in the source; here they are symbol lists
(`List Nat`) so row keys keep their prefix structure (an image row's key is
the ID itself, a pair row's key is the two IDs joined by a comma symbol).
Column qualifiers are symbolic constants. -/

/-- Column qualifiers of the rows involved (symbolic stand-ins for the
string qualifiers of the source). -/
def metadata_im_id1 : Nat := 1

def metadata_im_id2 : Nat := 2

def metadata_url : Nat := 3

def metadata_is_active : Nat := 4

def metadata_task_id : Nat := 5

def metadata_attribute : Nat := 6

/-- The comma symbol of `_get_pair_key`'s `','.join(...)`. -/
def commaSym : Nat := 44

/-- A stored HBase row: its key and its cells (column qualifier, value). -/
structure CellRow where
  key : List Nat
  cols : List (Nat × List Nat)
deriving DecidableEq

/-- HBase `table.scan(row_prefix=pre, columns=cols)`: yields the rows whose
key starts with `pre` and which carry at least one of the requested
columns. -/
def scanPrefixCols (rows : List CellRow) (pre : List Nat) (cols : List Nat) :
    List CellRow :=
  rows.filter fun r =>
    pre.isPrefixOf r.key && r.cols.any fun c => cols.contains c.1

/-- Reading a cell (`row_data['metadata:im_id1']`); the source indexes the
dict unconditionally ("we want it to fail hard") and the rows this is
applied to always carry the column. -/
def cellValue (r : CellRow) (c : Nat) : List Nat :=
  ((r.cols.find? fun cell => cell.1 == c).map fun cell => cell.2).getD []

/-- The two tables touched by `_get_preexisting_pairs` (which opens
`IMAGE_TABLE`) and `Set.register_task` (which writes pair records to
`PAIR_TABLE`). -/
structure Conn where
  imageTable : List CellRow
  pairTable : List CellRow
deriving DecidableEq

/-- `db._get_preexisting_pairs(conn, images)` (db.py lines 52-77).  Note the
source's `table = conn.table(IMAGE_TABLE)`: the prefix scans below run over
the *image* table. -/
def get_preexisting_pairs (conn : Conn) (images : List (List Nat)) :
    Finset (List Nat × List Nat) :=
  images.foldl
    (fun found im1 =>
      (scanPrefixCols conn.imageTable im1
          [metadata_im_id1, metadata_im_id2]).foldl
        (fun fnd r =>
          let c_im1 := cellValue r metadata_im_id1
          let c_im2 := cellValue r metadata_im_id2
          if c_im1 ∈ images ∧ c_im2 ∈ images then
            insert (pair_to_tuple c_im1 c_im2) fnd
          else fnd)
        found)
    ∅

/-- `db._get_pair_key`: the two IDs in lexicographic order, joined by a
comma. -/
def get_pair_key (im1 im2 : List Nat) : List Nat :=
  let p := pair_to_tuple im1 im2
  p.1 ++ [commaSym] ++ p.2

/-- `db._get_pair_dict` plus `_get_pair_key`: the row `Set.register_task`
writes to the pair table for one unordered pair. -/
def pair_row (im1 im2 task_id attr : List Nat) : CellRow :=
  let p := pair_to_tuple im1 im2
  ⟨get_pair_key im1 im2,
   [(metadata_im_id1, p.1), (metadata_im_id2, p.2),
    (metadata_task_id, task_id), (metadata_attribute, attr)]⟩

/-- The pair-store writes of `Set.register_task` (db.py lines 1553-1561):
one record per unordered pair occurring in some tuple of the task's
experiment sequence, batch-put into the pair table. -/
def register_task_pairs (conn : Conn) (task_id attr : List Nat)
    (exp_seq : List (Nat × List (List (List Nat)))) : Conn :=
  let pair_list :=
    (exp_seq.flatMap fun seg => seg.2.flatMap fun tup =>
        (pairs2 tup).map fun p => pair_to_tuple p.1 p.2).dedup
  { conn with
    pairTable := conn.pairTable ++
      pair_list.map fun p => pair_row p.1 p.2 task_id attr }

/-- The Pair History Index as claim C3 states it: exactly the canonicalized
unordered pairs with both members in the candidate set for which a pair
record exists in the persisted *pair* store. -/
def preexisting_pairs_claim (conn : Conn) (images : List (List Nat)) :
    Finset (List Nat × List Nat) :=
  ((images.flatMap fun a => images.map fun b => pair_to_tuple a b).filter
    fun p => conn.pairTable.any fun r => r.key == get_pair_key p.1 p.2).toFinset

/-! ### The Block Assembler (`Get.gen_task`, db.py lines 1106-1160) -/

/-- Modelled from the spec: the category tags `KEEP_BLOCK` / `REJECT_BLOCK`
live in the absent `conf.py`; their values are opaque, only their
distinctness matters. -/
def KEEP_BLOCK : String := "keep"

/-- See `KEEP_BLOCK`. -/
def REJECT_BLOCK : String := "reject"

/-- Modelled from the spec: the per-category instruction constants live in
the absent `conf.py`; opaque values. -/
def DEF_KEEP_BLOCK_INSTRUCTIONS : String := "keep-instructions"

/-- See `DEF_KEEP_BLOCK_INSTRUCTIONS`. -/
def DEF_REJECT_BLOCK_INSTRUCTIONS : String := "reject-instructions"

/-- One presentation block as `Get.gen_task` builds it. -/
structure Block where
  images : List (List Nat)
  image_idx_map : List (List Nat)
  btype : String
  instructions : String
  prompt : String
  global_tup_idxs : List Nat
deriving DecidableEq

/-- `db._shuffle_tuples`, with the two RNG outcomes explicit: `perm` is the
shuffled `np.arange(len(image_tuples))`, and `inners` gives, for each
position of the shuffled list, the permutation the within-tuple shuffle
applied to that tuple's positions. -/
def shuffle_tuples (perm : List Nat) (inners : List (List Nat))
    (image_tuples : List (List Nat)) : List (List Nat) × List Nat :=
  let n_tuples := perm.map fun i => image_tuples.getD i []
  ((n_tuples.zip inners).map fun ti => ti.2.map fun p => ti.1.getD p 0, perm)

/-- Splits a list into consecutive chunks of the given sizes. -/
def splitSizes {α : Type} : List α → List Nat → List (List α)
  | _, [] => []
  | l, s :: ss => l.take s :: splitSizes (l.drop s) ss

/-- Modelled from the spec: `chunks` lives in the absent `conf.py`; per §4.4
the tuple list is partitioned into the requested number of blocks "as evenly
as possible" — `chunks l n` yields `n` consecutive chunks, the first
`l.length % n` of size `l.length / n + 1` and the rest of size
`l.length / n`. -/
def chunks {α : Type} (l : List α) (n : Nat) : List (List α) :=
  splitSizes l ((List.range n).map fun i =>
    if i < l.length % n then l.length / n + 1 else l.length / n)

/-- The `global_image_idx_map` of `Get.gen_task`: each image mapped to its
first-occurrence index over the flattened tuple list. -/
def global_image_idx_map (image_tuples : List (List Nat)) (im : Nat) : Nat :=
  image_tuples.flatten.dedup.indexOf im

/-- The `while len(keep_blocks) or len(reject_blocks)` interleaving of
`Get.gen_task`: keep first, then alternating, with the longer tail appended
once the other side is exhausted. -/
def interleave {α : Type} : List α → List α → List α
  | [], rs => rs
  | k :: ks, rs =>
    match rs with
    | [] => k :: interleave ks []
    | r :: rs2 => k :: r :: interleave ks rs2

/-- The block-assembly part of `Get.gen_task` (db.py lines 1111-1156), with
every RNG outcome explicit: `kperm`/`kinners` and `rperm`/`rinners` are the
two independent `_shuffle_tuples` draws for the keep and reject copies, and
`segPerm` the optional final `np.random.shuffle` of the block sequence. -/
def gen_task_blocks (image_tuples : List (List Nat))
    (n_keep_blocks n_reject_blocks : Nat) (prompt : String)
    (kperm rperm : List Nat) (kinners rinners : List (List Nat))
    (random_segment_order : Bool) (segPerm : List Nat) : List Block :=
  let gmap := global_image_idx_map image_tuples
  let keep_shuf := shuffle_tuples kperm kinners image_tuples
  let keep_tuples := chunks keep_shuf.1 n_keep_blocks
  let keep_idxs := chunks keep_shuf.2 n_keep_blocks
  let rej_shuf := shuffle_tuples rperm rinners image_tuples
  let reject_tuples := chunks rej_shuf.1 n_reject_blocks
  let reject_idxs := chunks rej_shuf.2 n_reject_blocks
  let keep_blocks := (keep_tuples.zip keep_idxs).map fun kt =>
    ⟨kt.1, kt.1.map fun x => x.map gmap, KEEP_BLOCK,
     DEF_KEEP_BLOCK_INSTRUCTIONS, prompt, kt.2⟩
  let reject_blocks := (reject_tuples.zip reject_idxs).map fun rt =>
    ⟨rt.1, rt.1.map fun x => x.map gmap, REJECT_BLOCK,
     DEF_REJECT_BLOCK_INSTRUCTIONS, prompt, rt.2⟩
  let blocks := interleave keep_blocks reject_blocks
  if random_segment_order then
    segPerm.map fun i => blocks.getD i ⟨[], [], "", "", "", []⟩
  else blocks

/-- The multiset of images contained across a sequence of blocks. -/
def blockImages (bs : List Block) : Multiset Nat :=
  ((bs.map Block.images).flatten.flatten : List Nat)

/-! ### Lemmas about the Block Assembler -/

theorem range_map_getD {α : Type} (d : α) (l : List α) :
    (List.range l.length).map (fun i => l.getD i d) = l := by
  apply List.ext_getElem
  · simp
  · intro i h1 h2
    simp [List.getD, List.getElem?_eq_getElem h2]

theorem map_getD_perm {α : Type} (d : α) {l : List α} {p : List Nat}
    (hp : p.Perm (List.range l.length)) :
    (p.map fun i => l.getD i d).Perm l := by
  have := hp.map fun i => l.getD i d
  rwa [range_map_getD d l] at this

theorem forall2_perm_flatten {α : Type} {l1 l2 : List (List α)}
    (h : List.Forall₂ (fun a b => a.Perm b) l1 l2) :
    l1.flatten.Perm l2.flatten := by
  induction h with
  | nil => exact .refl []
  | cons hR _ ih => exact hR.append ih

theorem zip_inner_perm {tups inners : List (List Nat)}
    (h : List.Forall₂ (fun tup σ => σ.Perm (List.range tup.length)) tups inners) :
    List.Forall₂ (fun a b => a.Perm b)
      ((tups.zip inners).map fun ti => ti.2.map fun p => ti.1.getD p 0) tups := by
  induction h with
  | nil => exact .nil
  | cons hR _ ih => exact .cons (map_getD_perm 0 hR) ih

theorem shuffle_tuples_flatten_perm {image_tuples : List (List Nat)}
    {perm : List Nat} {inners : List (List Nat)}
    (hp : perm.Perm (List.range image_tuples.length))
    (hin : List.Forall₂ (fun tup σ => σ.Perm (List.range tup.length))
      (perm.map fun i => image_tuples.getD i []) inners) :
    (shuffle_tuples perm inners image_tuples).1.flatten.Perm
      image_tuples.flatten :=
  (forall2_perm_flatten (zip_inner_perm hin)).trans
    ((map_getD_perm [] hp).flatten)

theorem splitSizes_flatten {α : Type} (ss : List Nat) (l : List α) :
    (splitSizes l ss).flatten = l.take ss.sum := by
  induction ss generalizing l with
  | nil => simp [splitSizes]
  | cons s ss ih =>
    rw [splitSizes, List.flatten_cons, ih (l.drop s), List.sum_cons]
    exact (List.take_add l s ss.sum).symm

theorem evenSizes_sum_min (q : Nat) :
    ∀ (m r : Nat),
      (((List.range m).map fun i => if i < r then q + 1 else q)).sum =
        m * q + min r m := by
  intro m
  induction m with
  | zero => simp
  | succ m ih =>
    intro r
    rw [List.range_succ m, List.map_append, List.sum_append, ih r]
    by_cases hr : m < r
    · rw [List.map_singleton, List.sum_singleton, if_pos hr,
        min_eq_right (le_of_lt hr), min_eq_right (Nat.succ_le_of_lt hr),
        Nat.succ_mul]
      omega
    · rw [List.map_singleton, List.sum_singleton, if_neg hr,
        min_eq_left (le_of_not_lt hr),
        min_eq_left (le_trans (le_of_not_lt hr) (Nat.le_succ m)),
        Nat.succ_mul]
      omega

theorem chunks_flatten {α : Type} (l : List α) {n : Nat} (hn : 0 < n) :
    (chunks l n).flatten = l := by
  rw [chunks, splitSizes_flatten, evenSizes_sum_min,
    min_eq_left (le_of_lt (Nat.mod_lt l.length hn)),
    Nat.div_add_mod l.length n]
  exact List.take_length l

theorem splitSizes_length {α : Type} (ss : List Nat) (l : List α) :
    (splitSizes l ss).length = ss.length := by
  induction ss generalizing l with
  | nil => rfl
  | cons s ss ih => simp [splitSizes, ih]

theorem chunks_length {α : Type} (l : List α) (n : Nat) :
    (chunks l n).length = n := by
  rw [chunks, splitSizes_length, List.length_map, List.length_range]

theorem interleave_perm {α : Type} :
    ∀ (ks rs : List α), (interleave ks rs).Perm (ks ++ rs) := by
  intro ks
  induction ks with
  | nil => intro rs; exact .refl rs
  | cons k ks ih =>
    intro rs
    match rs with
    | [] => exact (ih []).cons k
    | r :: rs2 =>
      exact (((ih rs2).cons r).cons k).trans (List.perm_middle.symm.cons k)

theorem blockImages_perm {bs bs2 : List Block} (h : bs.Perm bs2) :
    blockImages bs = blockImages bs2 :=
  Multiset.coe_eq_coe.mpr (((h.map Block.images).flatten).flatten)

theorem blockImages_append (a b : List Block) :
    blockImages (a ++ b) = blockImages a + blockImages b := by
  rw [blockImages, List.map_append, List.flatten_append, List.flatten_append]
  rfl

theorem catBlocks_images {sh : List (List Nat)} {idx : List Nat} {n : Nat}
    (hn : 0 < n) (gm : Nat → Nat) (bt ins pr : String) :
    blockImages (((chunks sh n).zip (chunks idx n)).map fun kt =>
      (⟨kt.1, kt.1.map fun x => x.map gm, bt, ins, pr, kt.2⟩ : Block)) =
      (sh.flatten : Multiset Nat) := by
  rw [blockImages, List.map_map]
  have hcomp : (Block.images ∘ fun kt : List (List Nat) × List Nat =>
      (⟨kt.1, kt.1.map fun x => x.map gm, bt, ins, pr, kt.2⟩ : Block)) =
      Prod.fst := rfl
  rw [hcomp, List.map_fst_zip _ _ (by rw [chunks_length, chunks_length]),
    chunks_flatten sh hn]

theorem blocks_shuffle_images {bs : List Block} {segPerm : List Nat}
    (hsp : segPerm.Perm (List.range bs.length)) :
    blockImages (segPerm.map fun i => bs.getD i ⟨[], [], "", "", "", []⟩) =
      blockImages bs :=
  blockImages_perm (map_getD_perm _ hsp)

theorem catBlocks_length {sh : List (List Nat)} {idx : List Nat} {n : Nat}
    (gm : Nat → Nat) (bt ins pr : String) :
    (((chunks sh n).zip (chunks idx n)).map fun kt =>
      (⟨kt.1, kt.1.map fun x => x.map gm, bt, ins, pr, kt.2⟩ : Block)).length
      = n := by
  rw [List.length_map, List.length_zip, chunks_length, chunks_length,
    min_self]

/-! ### Lemmas about the sampling loop -/

theorem sampleStep_fst_subset (isPractice : Bool) (im : Nat)
    (images : Finset Nat) (tbl : List (Nat × SImage)) :
    (sampleStep isPractice im images tbl).1 ⊆ insert im images := by
  rw [sampleStep]
  by_cases hp : isPractice <;> by_cases hs : surplusOf tbl im ≤ 0 <;>
    simp [hp, hs, Finset.Subset.refl, Finset.subset_insert]

theorem sampleStep_fst_card (isPractice : Bool) (im : Nat)
    (images : Finset Nat) (tbl : List (Nat × SImage)) :
    (sampleStep isPractice im images tbl).1.card ≤ images.card + 1 :=
  le_trans (Finset.card_le_card (sampleStep_fst_subset isPractice im images tbl))
    (Finset.card_insert_le im images)

theorem getNImagesLoop_ok {pool : List Nat} {accept : Nat → Bool}
    {isPractice : Bool} {n : Nat} (hn : n ≤ pool.length) :
    ∀ (fuel k : Nat) (images : Finset Nat) (tbl : List (Nat × SImage))
      {ids : Finset Nat} {tbl2 : List (Nat × SImage)},
      images.card ≤ n → (∀ x ∈ images, x ∈ pool) →
      getNImagesLoop pool accept isPractice n fuel k images tbl =
        some (ids, tbl2) →
      ids.card = n ∧ ∀ x ∈ ids, x ∈ pool := by
  intro fuel
  induction fuel with
  | zero => intro k images tbl ids tbl2 _ _ h; cases h
  | succ fuel ih =>
    intro k images tbl ids tbl2 hcard hsub h
    rw [getNImagesLoop] at h
    by_cases hdone : n ≤ images.card
    · rw [if_pos hdone] at h
      injection h with h
      injection h with h1 h2
      subst h1
      exact ⟨le_antisymm hcard hdone, hsub⟩
    · rw [if_neg hdone] at h
      have hlt : images.card < n := lt_of_not_le hdone
      have hpool : 0 < pool.length := by omega
      have him : pool.getD (k % pool.length) 0 ∈ pool := by
        rw [List.getD_eq_getElem _ _ (Nat.mod_lt k hpool)]
        exact List.getElem_mem _
      by_cases hacc : accept k
      · rw [if_pos hacc] at h
        refine ih (k + 1) _ _ ?_ ?_ h
        · exact le_trans (sampleStep_fst_card _ _ _ _) hlt
        · intro x hx
          rcases Finset.mem_insert.mp
            (sampleStep_fst_subset _ _ _ _ hx) with rfl | hx2
          · exact him
          · exact hsub x hx2
      · rw [if_neg hacc] at h
        exact ih (k + 1) _ _ hcard hsub h

/-- Run of the sampling loop in the all-accept, no-surplus, real-task case:
it collects the first `n` pool images in order. -/
theorem getNImagesLoop_all_accept {pool : List Nat} {tbl : List (Nat × SImage)}
    (hnd : pool.Nodup) (hsurp : ∀ im, surplusOf tbl im ≤ 0) {n : Nat}
    (hn : n ≤ pool.length) :
    ∀ (fuel k : Nat), n < k + fuel → k ≤ n →
      getNImagesLoop pool (fun _ => true) false n fuel k
          ((pool.take k).toFinset) tbl =
        some ((pool.take n).toFinset, tbl) := by
  have hcard : ∀ m, m ≤ pool.length → (pool.take m).toFinset.card = m := by
    intro m hm
    rw [List.toFinset_card_of_nodup (hnd.sublist (List.take_sublist m pool)),
      List.length_take]
    exact min_eq_left hm
  intro fuel
  induction fuel with
  | zero => intro k h1 h2; omega
  | succ fuel ih =>
    intro k h1 h2
    rw [getNImagesLoop]
    by_cases hk : k = n
    · subst hk
      rw [if_pos (le_of_eq (hcard k (le_trans h2 hn)).symm)]
    · have hklt : k < n := lt_of_le_of_ne h2 hk
      have hkln : k < pool.length := lt_of_lt_of_le hklt hn
      have hcond : ¬ (n ≤ (pool.take k).toFinset.card) := by
        rw [hcard k (le_of_lt hkln)]; omega
      rw [if_neg hcond]
      have hmod : k % pool.length = k := Nat.mod_eq_of_lt hkln
      have hgetD : pool.getD (k % pool.length) 0 = pool[k] := by
        rw [hmod, List.getD_eq_getElem _ _ hkln]
      rw [if_pos rfl]
      have hstep : sampleStep false (pool.getD (k % pool.length) 0)
          (pool.take k).toFinset tbl =
          (insert pool[k] (pool.take k).toFinset, tbl) := by
        rw [sampleStep, hgetD]
        simp [hsurp pool[k]]
      rw [hstep]
      have hconc : pool.take (k + 1) = pool.take k ++ [pool[k]] := by
        rw [List.take_succ, List.getElem?_eq_getElem hkln]
        rfl
      have htake : insert pool[k] (pool.take k).toFinset =
          (pool.take (k + 1)).toFinset := by
        rw [hconc, List.toFinset_append]
        ext x
        simp [Or.comm]
      rw [htake]
      exact ih (k + 1) (by omega) hklt

theorem surplusOf_nonpos {tbl : List (Nat × SImage)}
    (h : ∀ kr ∈ tbl, kr.2.surplus ≤ 0) (im : Nat) : surplusOf tbl im ≤ 0 := by
  rw [surplusOf]
  match hf : tbl.find? fun kr => kr.1 == im with
  | none => rw [hf]; simp
  | some kr =>
    rw [hf]
    simpa using h kr (List.mem_of_find?_eq_some hf)

/-- The image table of the spec's Sampling Allocator scenario: 100 active
images matching the attribute predicate, all surplus credits zero. -/
def scenarioTable : List (Nat × SImage) :=
  (List.range 100).map fun i => (i, ⟨true, true, 0⟩)

/-- The result set of the scenario run: the first 10 scanned images. -/
def scenarioResult : Finset Nat := ((List.range 100).take 10).toFinset

theorem activePool_scenario : activePool scenarioTable = List.range 100 := by
  decide

theorem get_n_images_scenario_calc :
    get_n_images 20 10 scenarioTable (fun _ => true) false =
      .ok scenarioResult scenarioTable := by
  have hsurp : ∀ im, surplusOf scenarioTable im ≤ 0 :=
    surplusOf_nonpos (by decide)
  have hrun := getNImagesLoop_all_accept (List.nodup_range 100) hsurp
    (n := 10) (by decide) 20 0 (by decide) (by decide)
  rw [get_n_images]
  rw [activePool_scenario]
  rw [if_neg (by decide)]
  simpa [scenarioResult] using congrArg
    (fun r : Option (Finset Nat × List (Nat × SImage)) =>
      match r with
      | none => SampleResult.noFuel
      | some (ids, t2) => SampleResult.ok ids t2) hrun

/-! ### The occurrence-counter invariant of the two design searches -/

theorem count_nodup {c : List Nat} (hnd : c.Nodup) (i : Nat) :
    c.count i = if i ∈ c then 1 else 0 := by
  by_cases hm : i ∈ c
  · rw [if_pos hm]; exact List.count_eq_one_of_mem hnd hm
  · rw [if_neg hm]; exact List.count_eq_zero_of_not_mem hm

theorem count_map_getD {images : List Nat} (hnd : images.Nodup) {c : List Nat}
    (hc : ∀ x ∈ c, x < images.length) {i : Nat} (hi : i < images.length) :
    (c.map fun x => images.getD x 0).count (images.getD i 0) = c.count i := by
  induction c with
  | nil => rfl
  | cons a as ih =>
    have ha : a < images.length := hc a (List.mem_cons_self a as)
    have heq : ((images.getD a 0) == (images.getD i 0)) = (a == i) := by
      rw [List.getD_eq_getElem _ _ ha, List.getD_eq_getElem _ _ hi]
      by_cases hai : a = i
      · subst hai; simp
      · have : images[a] ≠ images[i] := fun he =>
          hai (hnd.getElem_inj_iff.mp he)
        simp [this, hai]
    rw [List.map_cons, List.count_cons, List.count_cons,
      ih fun x hx => hc x (List.mem_cons_of_mem a hx), heq]

/-- The invariant of `Get.gen_design`'s search: while running (`inl`), the
occurrence counter of every candidate index equals the number of occurrences
of the corresponding image across the design built so far; once the early
exit has fired (`inr`), every candidate image occurs at least `j` times. -/
def occInv (images : List Nat) (n j : Nat) : (DState ⊕ List (List Nat)) → Prop
  | .inl st => st.occ.length = n ∧
      ∀ i, i < n → st.occ.getD i 0 =
        (st.design.map fun tup => tup.count (images.getD i 0)).sum
  | .inr d => ∀ i, i < n → j ≤ (d.map fun tup => tup.count (images.getD i 0)).sum

theorem designStep_occInv {images : List Nat} {n t j : Nat}
    (hlen : images.length = n) (hnd : images.Nodup)
    {acc : DState ⊕ List (List Nat)} {iocc : Nat} {c : List Nat}
    (hc : c ∈ combinations t (List.range n))
    (hinv : occInv images n j acc) :
    occInv images n j (designStep images j acc iocc c) := by
  match acc with
  | .inr d => exact hinv
  | .inl st =>
    have hsub := combinations_sublist hc
    have hcnd : c.Nodup := (List.nodup_range n).sublist hsub
    have hclt : ∀ x ∈ c, x < n := fun x hx => List.mem_range.mp (hsub.mem hx)
    obtain ⟨hlen2, hocc⟩ := hinv
    simp only [designStep]
    split
    case isTrue hmin =>
      intro i hi
      rw [← hocc i hi, ← hmin]
      exact minOcc_le_of_mem (by
        rw [List.getD_eq_getElem _ _ (by rw [hlen2]; exact hi)]
        exact List.getElem_mem _)
    case isFalse hmin =>
      split
      · exact ⟨hlen2, hocc⟩
      · split
        · exact ⟨hlen2, hocc⟩
        · split
          · exact ⟨hlen2, hocc⟩
          · refine ⟨(incAll_length st.occ c).trans hlen2, fun i hi => ?_⟩
            rw [incAll_getD hcnd (fun x hx => by rw [hlen2]; exact hclt x hx),
              List.map_append, List.sum_append, ← hocc i hi]
            simp only [List.map_cons, List.map_nil, List.sum_cons, List.sum_nil]
            rw [count_map_getD hnd (fun x hx => by rw [hlen]; exact hclt x hx)
              (by rw [hlen]; exact hi), count_nodup hcnd i]
            omega

theorem designInner_occInv {images : List Nat} {n t j : Nat}
    (hlen : images.length = n) (hnd : images.Nodup)
    {iocc : Nat} {cands : List (List Nat)}
    (hall : ∀ c ∈ cands, c ∈ combinations t (List.range n))
    {acc : DState ⊕ List (List Nat)} (hinv : occInv images n j acc) :
    occInv images n j (designInner images j iocc cands acc) := by
  induction cands generalizing acc with
  | nil => exact hinv
  | cons c cs ih =>
    exact ih (fun c' hc' => hall c' (List.mem_cons_of_mem c hc'))
      (designStep_occInv hlen hnd (hall c (List.mem_cons_self c cs)) hinv)

theorem designRoundsLoop_occInv {images : List Nat} {n t j : Nat}
    (hlen : images.length = n) (hnd : images.Nodup)
    {cands : List (List Nat)}
    (hall : ∀ c ∈ cands, c ∈ combinations t (List.range n))
    (rounds : List Nat) {acc : DState ⊕ List (List Nat)}
    (hinv : occInv images n j acc) :
    occInv images n j (designRoundsLoop images j cands rounds acc) := by
  induction rounds generalizing acc with
  | nil => exact hinv
  | cons iocc rest ih =>
    exact ih (designInner_occInv hlen hnd hall hinv)

theorem genDesignCore_occ_floor {images : List Nat} {n t j : Nat}
    {pre : Finset (Nat × Nat)} {d : List (List Nat)}
    (hlen : images.length = n) (hnd : images.Nodup)
    (h : genDesignCore images n t j pre = some d) :
    ∀ im ∈ images, j ≤ (d.map fun tup => tup.count im).sum := by
  have hinit : occInv images n j
      (.inl ⟨List.replicate n 0, pre, []⟩) := by
    refine ⟨List.length_replicate n 0, fun i hi => ?_⟩
    simp [List.getD]
  have hfin := designRoundsLoop_occInv (t := t) hlen hnd
    (fun c hc => hc) (List.range (t + j)) hinit
  rw [genDesignCore] at h
  intro im him
  obtain ⟨i, hi, rfl⟩ := List.mem_iff_getElem.mp him
  have hgd : images[i] = images.getD i 0 := (List.getD_eq_getElem _ _ hi).symm
  rw [hgd]
  split at h
  case h_1 d' heq =>
    rw [heq] at hfin
    injection h with h
    subst h
    exact hfin i (hlen ▸ hi)
  case h_2 st heq =>
    rw [heq] at hfin
    split at h
    case isTrue hge =>
      injection h with h
      subst h
      obtain ⟨hl2, hocc⟩ := hfin
      rw [← hocc i (hlen ▸ hi)]
      refine le_trans hge (minOcc_le_of_mem ?_)
      rw [List.getD_eq_getElem _ _ (by rw [hl2, ← hlen]; exact hi)]
      exact List.getElem_mem _
    case isFalse hge => cases h

/-- The invariant of `generate.utils.get_design`'s search, at the level of
candidate indices. -/
def utilsInv (n j : Nat) : (UState ⊕ List (List Nat)) → Prop
  | .inl st => st.occ.length = n ∧
      ∀ i, i < n → st.occ.getD i 0 = (st.combs.map fun cc => cc.count i).sum
  | .inr d => ∀ i, i < n → j ≤ (d.map fun cc => cc.count i).sum

theorem utilsStep_utilsInv {n t j : Nat}
    {acc : UState ⊕ List (List Nat)} {allvio : Nat} {c : List Nat}
    (hc : c ∈ combinations t (List.range n))
    (hinv : utilsInv n j acc) :
    utilsInv n j (utilsStep j acc allvio c) := by
  match acc with
  | .inr d => exact hinv
  | .inl st =>
    have hsub := combinations_sublist hc
    have hcnd : c.Nodup := (List.nodup_range n).sublist hsub
    have hclt : ∀ x ∈ c, x < n := fun x hx => List.mem_range.mp (hsub.mem hx)
    obtain ⟨hlen2, hocc⟩ := hinv
    simp only [utilsStep]
    split
    case isTrue hmin =>
      intro i hi
      rw [← hocc i hi, ← hmin]
      exact minOcc_le_of_mem (by
        rw [List.getD_eq_getElem _ _ (by rw [hlen2]; exact hi)]
        exact List.getElem_mem _)
    case isFalse hmin =>
      split
      · exact ⟨hlen2, hocc⟩
      · refine ⟨(incAll_length st.occ c).trans hlen2, fun i hi => ?_⟩
        rw [incAll_getD hcnd (fun x hx => by rw [hlen2]; exact hclt x hx),
          List.map_append, List.sum_append, ← hocc i hi]
        simp only [List.map_cons, List.map_nil, List.sum_cons, List.sum_nil]
        rw [count_nodup hcnd i]
        omega

theorem utilsRoundsLoop_utilsInv {n t j : Nat}
    {cands : List (List Nat)}
    (hall : ∀ c ∈ cands, c ∈ combinations t (List.range n))
    (rounds : List Nat) {acc : UState ⊕ List (List Nat)}
    (hinv : utilsInv n j acc) :
    utilsInv n j (utilsRoundsLoop j cands rounds acc) := by
  induction rounds generalizing acc with
  | nil => exact hinv
  | cons allvio rest ih =>
    refine ih ?_
    have : ∀ cands' : List (List Nat), (∀ c ∈ cands', c ∈ combinations t (List.range n)) →
        ∀ acc', utilsInv n j acc' → utilsInv n j (utilsInner j allvio cands' acc') := by
      intro cands' hall' acc' hinv'
      induction cands' generalizing acc' with
      | nil => exact hinv'
      | cons c cs ih2 =>
        exact ih2 (fun c' hc' => hall' c' (List.mem_cons_of_mem c hc'))
          _ (utilsStep_utilsInv (hall' c (List.mem_cons_self c cs)) hinv')
    exact this cands hall acc hinv

theorem get_design_occ_floor {n t j : Nat} {d : List (List Nat)}
    (h : get_design n t j = some d) :
    ∀ i, i < n → j ≤ (d.map fun cc => cc.count i).sum := by
  have hinit : utilsInv n j (.inl ⟨0, List.replicate n 0, []⟩) := by
    refine ⟨List.length_replicate n 0, fun i hi => ?_⟩
    simp [List.getD]
  have hfin := utilsRoundsLoop_utilsInv (t := t)
    (fun c hc => hc) (List.range t) hinit
  rw [get_design] at h
  intro i hi
  split at h
  case h_1 d' heq =>
    rw [heq] at hfin
    injection h with h
    subst h
    exact hfin i hi
  case h_2 st heq =>
    rw [heq] at hfin
    split at h
    case isTrue hge =>
      injection h with h
      subst h
      obtain ⟨hl2, hocc⟩ := hfin
      rw [← hocc i hi]
      refine le_trans hge (minOcc_le_of_mem ?_)
      rw [List.getD_eq_getElem _ _ (by rw [hl2]; exact hi)]
      exact List.getElem_mem _
    case isFalse hge => cases h

/-! ### Relabelling: the image-level search is the index-level search mapped
through the candidate list -/

theorem pair_to_tuple_comm {α : Type} [LinearOrder α] (a b : α) :
    pair_to_tuple a b = pair_to_tuple b a := by
  rw [pair_to_tuple, pair_to_tuple]
  rcases le_total a b with h | h
  · rw [if_pos h]
    by_cases hba : b ≤ a
    · rw [if_pos hba, le_antisymm h hba]
    · rw [if_neg hba]
  · rw [if_pos h]
    by_cases hab : a ≤ b
    · rw [if_pos hab, le_antisymm h hab]
    · rw [if_neg hab]

theorem pair_to_tuple_idem {α : Type} [LinearOrder α] (a b : α) :
    pair_to_tuple (pair_to_tuple a b).1 (pair_to_tuple a b).2 =
      pair_to_tuple a b := by
  rw [pair_to_tuple]
  by_cases h : a ≤ b
  · simp [h, pair_to_tuple]
  · simp [h, pair_to_tuple, le_of_lt (lt_of_not_le h)]

theorem pair_to_tuple_eq_iff {a b c d : Nat} :
    pair_to_tuple a b = pair_to_tuple c d ↔
      (a = c ∧ b = d) ∨ (a = d ∧ b = c) := by
  rw [pair_to_tuple, pair_to_tuple]
  split_ifs <;> simp [Prod.ext_iff] <;> omega

theorem pairs2_map {α β : Type} (f : α → β) (l : List α) :
    pairs2 (l.map f) = (pairs2 l).map fun p => (f p.1, f p.2) := by
  induction l with
  | nil => rfl
  | cons x xs ih =>
    simp only [List.map_cons, pairs2, ih, List.map_append, List.map_map]
    rfl

theorem pairs2_mem {α : Type} {l : List α} {p : α × α} (hp : p ∈ pairs2 l) :
    p.1 ∈ l ∧ p.2 ∈ l := by
  induction l with
  | nil => cases hp
  | cons x xs ih =>
    rw [pairs2, List.mem_append] at hp
    rcases hp with hp | hp
    · rcases List.mem_map.mp hp with ⟨y, hy, rfl⟩
      exact ⟨List.mem_cons_self x xs, List.mem_cons_of_mem x hy⟩
    · rcases ih hp with ⟨h1, h2⟩
      exact ⟨List.mem_cons_of_mem x h1, List.mem_cons_of_mem x h2⟩

theorem getD_range {n x : Nat} (h : x < n) : (List.range n).getD x 0 = x := by
  rw [List.getD_eq_getElem _ _ (by simpa using h)]
  simp

theorem map_getD_range {n : Nat} {c : List Nat} (h : ∀ x ∈ c, x < n) :
    (c.map fun x => (List.range n).getD x 0) = c := by
  induction c with
  | nil => rfl
  | cons a as ih =>
    rw [List.map_cons, getD_range (h a (List.mem_cons_self a as)),
      ih fun x hx => h x (List.mem_cons_of_mem a hx)]

/-- All-quantifier congruence for `List.all` restricted to members. -/
theorem all_congr_mem {α : Type} {l : List α} {p q : α → Bool}
    (h : ∀ x ∈ l, p x = q x) : l.all p = l.all q := by
  induction l with
  | nil => rfl
  | cons x xs ih =>
    rw [List.all_cons, List.all_cons, h x (List.mem_cons_self x xs),
      ih fun y hy => h y (List.mem_cons_of_mem x hy)]

/-- The canonical image-level pair corresponding to an index pair. -/
def imagePair (images : List Nat) (p : Nat × Nat) : Nat × Nat :=
  pair_to_tuple (images.getD p.1 0) (images.getD p.2 0)

theorem imagePair_pt (images : List Nat) (x y : Nat) :
    imagePair images (pair_to_tuple x y) =
      pair_to_tuple (images.getD x 0) (images.getD y 0) := by
  by_cases hxy : x ≤ y
  · have h : pair_to_tuple x y = (x, y) := by rw [pair_to_tuple, if_pos hxy]
    rw [imagePair, h]
  · have h : pair_to_tuple x y = (y, x) := by rw [pair_to_tuple, if_neg hxy]
    rw [imagePair, h]
    exact pair_to_tuple_comm _ _

/-- Invariant of the index-level observed-pair set: every stored pair is a
canonical pair of indices below `n`. -/
def obsIdxInv (n : Nat) (S : Finset (Nat × Nat)) : Prop :=
  ∀ p ∈ S, p.1 < n ∧ p.2 < n ∧ pair_to_tuple p.1 p.2 = p

theorem getD_inj {images : List Nat} (hnd : images.Nodup) {a b : Nat}
    (ha : a < images.length) (hb : b < images.length)
    (h : images.getD a 0 = images.getD b 0) : a = b := by
  rw [List.getD_eq_getElem _ _ ha, List.getD_eq_getElem _ _ hb] at h
  exact hnd.getElem_inj_iff.mp h

theorem mem_image_imagePair {images : List Nat} {n : Nat}
    (hnd : images.Nodup) (hlen : images.length = n)
    {S : Finset (Nat × Nat)} (hS : obsIdxInv n S) {a b : Nat}
    (ha : a < n) (hb : b < n) :
    (pair_to_tuple (images.getD a 0) (images.getD b 0) ∈
        S.image (imagePair images)) ↔ pair_to_tuple a b ∈ S := by
  constructor
  · intro h
    rcases Finset.mem_image.mp h with ⟨q, hq, hqe⟩
    obtain ⟨hq1, hq2, hqc⟩ := hS q hq
    rw [imagePair] at hqe
    have hpt : pair_to_tuple q.1 q.2 = pair_to_tuple a b := by
      rcases pair_to_tuple_eq_iff.mp hqe with ⟨h1, h2⟩ | ⟨h1, h2⟩
      · rw [getD_inj hnd (hlen ▸ hq1) (hlen ▸ ha) h1,
          getD_inj hnd (hlen ▸ hq2) (hlen ▸ hb) h2]
      · rw [getD_inj hnd (hlen ▸ hq1) (hlen ▸ hb) h1,
          getD_inj hnd (hlen ▸ hq2) (hlen ▸ ha) h2]
        exact pair_to_tuple_comm b a
    rwa [← hpt, hqc]
  · intro h
    exact Finset.mem_image.mpr ⟨pair_to_tuple a b, h, imagePair_pt images a b⟩

theorem tuple_permitted_relabel {images : List Nat} {n : Nat}
    (hnd : images.Nodup) (hlen : images.length = n)
    {S : Finset (Nat × Nat)} (hS : obsIdxInv n S) {c : List Nat}
    (hc : ∀ x ∈ c, x < n) :
    tuple_permitted (c.map fun x => images.getD x 0)
        (S.image (imagePair images)) =
      tuple_permitted c S := by
  rw [tuple_permitted, tuple_permitted, pairs2_map, List.all_map]
  refine all_congr_mem fun p hp => ?_
  obtain ⟨h1, h2⟩ := pairs2_mem hp
  have := mem_image_imagePair hnd hlen hS (hc _ h1) (hc _ h2)
  simp only [Function.comp_apply]
  rw [decide_eq_decide.mpr this]

theorem list_toFinset_map {α β : Type} [DecidableEq α] [DecidableEq β]
    (f : α → β) (l : List α) : (l.map f).toFinset = l.toFinset.image f := by
  ext b
  simp

theorem pairsOf_image {images : List Nat} (c : List Nat) :
    (((pairs2 c).map fun p => pair_to_tuple p.1 p.2).toFinset).image
        (imagePair images) =
      ((pairs2 (c.map fun x => images.getD x 0)).map
        fun p => pair_to_tuple p.1 p.2).toFinset := by
  rw [pairs2_map, List.map_map, list_toFinset_map, list_toFinset_map,
    Finset.image_image]
  refine Finset.image_congr fun p _ => ?_
  simp only [Function.comp_apply]
  exact imagePair_pt images p.1 p.2

theorem obsIdxInv_accept {n : Nat} {S : Finset (Nat × Nat)}
    (hS : obsIdxInv n S) {c : List Nat} (hc : ∀ x ∈ c, x < n) :
    obsIdxInv n
      (S ∪ ((pairs2 c).map fun p => pair_to_tuple p.1 p.2).toFinset) := by
  intro p hp
  rcases Finset.mem_union.mp hp with hp | hp
  · exact hS p hp
  · rw [List.mem_toFinset] at hp
    rcases List.mem_map.mp hp with ⟨q, hq, rfl⟩
    obtain ⟨h1, h2⟩ := pairs2_mem hq
    have hx := hc _ h1
    have hy := hc _ h2
    refine ⟨?_, ?_, pair_to_tuple_idem q.1 q.2⟩ <;>
      · rw [pair_to_tuple]
        split <;> omega

/-- Simulation relation between the image-level search state and the
index-level search state of `Get.gen_design`. -/
def SimR (images : List Nat) (n : Nat) :
    (DState ⊕ List (List Nat)) → (DState ⊕ List (List Nat)) → Prop
  | .inl a, .inl b =>
      a.occ = b.occ ∧
      a.design = b.design.map (List.map fun x => images.getD x 0) ∧
      a.obs = b.obs.image (imagePair images) ∧
      obsIdxInv n b.obs
  | .inr d, .inr e => d = e.map (List.map fun x => images.getD x 0)
  | .inl _, .inr _ => False
  | .inr _, .inl _ => False

theorem designStep_sim {images : List Nat} {n t j : Nat}
    (hnd : images.Nodup) (hlen : images.length = n)
    {acc acc2 : DState ⊕ List (List Nat)} {iocc : Nat} {c : List Nat}
    (hc : c ∈ combinations t (List.range n))
    (hsim : SimR images n acc acc2) :
    SimR images n (designStep images j acc iocc c)
      (designStep (List.range n) j acc2 iocc c) := by
  match acc, acc2 with
  | .inr d, .inr e => exact hsim
  | .inr d, .inl b => exact absurd hsim id
  | .inl a, .inr e => exact absurd hsim id
  | .inl a, .inl b =>
    obtain ⟨hocc, hdes, hobs, hinv⟩ := hsim
    have hclt : ∀ x ∈ c, x < n := fun x hx =>
      List.mem_range.mp ((combinations_sublist hc).mem hx)
    have hcur_ix : (c.map fun x => (List.range n).getD x 0) = c :=
      map_getD_range hclt
    simp only [designStep, hocc, hobs, hcur_ix,
      tuple_permitted_relabel hnd hlen hinv hclt]
    split
    · exact hdes
    · split
      · exact ⟨hocc, hdes, hobs, hinv⟩
      · split
        · exact ⟨hocc, hdes, hobs, hinv⟩
        · split
          · exact ⟨hocc, hdes, hobs, hinv⟩
          · refine ⟨rfl, ?_, ?_, obsIdxInv_accept hinv hclt⟩
            · show a.design ++ _ = _
              rw [hdes, List.map_append]
              rfl
            · show _ ∪ _ = Finset.image _ _
              rw [Finset.image_union, pairsOf_image]

theorem designRoundsLoop_sim {images : List Nat} {n t j : Nat}
    (hnd : images.Nodup) (hlen : images.length = n)
    {cands : List (List Nat)}
    (hall : ∀ c ∈ cands, c ∈ combinations t (List.range n))
    (rounds : List Nat) {acc acc2 : DState ⊕ List (List Nat)}
    (hsim : SimR images n acc acc2) :
    SimR images n (designRoundsLoop images j cands rounds acc)
      (designRoundsLoop (List.range n) j cands rounds acc2) := by
  induction rounds generalizing acc acc2 with
  | nil => exact hsim
  | cons iocc rest ih =>
    refine ih ?_
    clear ih
    induction cands generalizing acc acc2 with
    | nil => exact hsim
    | cons c cs ih2 =>
      exact ih2 (fun c' hc' => hall c' (List.mem_cons_of_mem c hc'))
        (designStep_sim hnd hlen (hall c (List.mem_cons_self c cs)) hsim)

/-- The image-level `gen_design` search on a duplicate-free candidate list
with an empty exclusion set is the index-level search relabelled through the
candidate list. -/
theorem genDesignCore_relabel {images : List Nat} {n t j : Nat}
    (hnd : images.Nodup) (hlen : images.length = n) :
    genDesignCore images n t j ∅ =
      (genDesignCore (List.range n) n t j ∅).map
        (List.map (List.map fun x => images.getD x 0)) := by
  have hsim0 : SimR images n
      (.inl ⟨List.replicate n 0, ∅, []⟩) (.inl ⟨List.replicate n 0, ∅, []⟩) :=
    ⟨rfl, rfl, by simp, fun p hp => absurd hp (Finset.not_mem_empty p)⟩
  have hsim := designRoundsLoop_sim (t := t) (j := j) hnd hlen (fun c hc => hc)
    (List.range (t + j)) hsim0
  rw [genDesignCore, genDesignCore]
  match h1 : designRoundsLoop images j (combinations t (List.range n))
      (List.range (t + j)) (.inl ⟨List.replicate n 0, ∅, []⟩),
    h2 : designRoundsLoop (List.range n) j (combinations t (List.range n))
      (List.range (t + j)) (.inl ⟨List.replicate n 0, ∅, []⟩) with
  | .inr d, .inr e =>
    rw [h1, h2] at hsim
    show some d = Option.map _ (some e)
    rw [hsim]
    rfl
  | .inr d, .inl b => rw [h1, h2] at hsim; exact absurd hsim id
  | .inl a, .inr e => rw [h1, h2] at hsim; exact absurd hsim id
  | .inl a, .inl b =>
    rw [h1, h2] at hsim
    obtain ⟨hocc, hdes, _, _⟩ := hsim
    show (if minOcc a.occ ≥ j then some a.design else none) =
      Option.map _ (if minOcc b.occ ≥ j then some b.design else none)
    rw [hocc]
    by_cases hge : minOcc b.occ ≥ j
    · rw [if_pos hge, if_pos hge, hdes]
      rfl
    · rw [if_neg hge, if_neg hge]
      rfl

/-! ### Claim theorems -/

/-- C1: the claim says no unordered pair of images appears in more than one
tuple of any design returned by the Design Builder (`Get.gen_design` /
`get_design`).  `generate.utils.get_design` violates this: its pair check is
dead code (the `continue` at utils.py line 50 only continues the inner pair
loop), so on `n=2, t=2, j=2` it returns the design `[(0,1), (0,1)]`, in which
the unordered pair `(0,1)` occurs in two tuples — contradicting the
function's own docstring ("no pairs of elements occurs in any subset more
than once"). -/
theorem get_design_repeats_pair_bug :
    get_design 2 2 2 = some [[0, 1], [0, 1]] ∧
      2 ≤ tuplesContaining (0, 1) [[0, 1], [0, 1]] := by decide

/-- C4 (counterexample): the claim says the relaxation rounds `iocc` are
enumerated "from the group size t up to t + j"; the source enumerates
`range(0, t + j)`.  The two enumerations are observably different: at
`n=4, t=2, j=1` with an empty exclusion set the source produces
`[(0,1), (2,3)]` while the claimed enumeration produces
`[(0,1), (0,2), (0,3)]`. -/
theorem gen_design_rounds_start_at_zero :
    genDesignCore (List.range 4) 4 2 1 ∅ = some [[0, 1], [2, 3]] ∧
      genDesignClaimRounds (List.range 4) 4 2 1 ∅ = some [[0, 1], [0, 2], [0, 3]] ∧
      genDesignCore (List.range 4) 4 2 1 ∅ ≠
        genDesignClaimRounds (List.range 4) 4 2 1 ∅ := by decide

/-- C4 (amended): in the Design Builder the relaxation rounds `iocc` are
enumerated from 0 up to `t + j - 1` (Python's `range(0, t + j)`), within each
round all size-`t` combinations of candidate indices are enumerated in
lexicographic order by index, and a combination is rejected whenever any
member image's occurrence counter already exceeds the current round number
`iocc` (and the early-exit test has not fired). -/
theorem gen_design_round_enumeration :
    (∀ (images : List Nat) (n t j : Nat) (pre : Finset (Nat × Nat)),
      genDesignCore images n t j pre =
        match (allCandidates n t j).foldl
            (fun a p => designStep images j a p.1 p.2)
            (.inl ⟨List.replicate n 0, pre, []⟩) with
        | .inr d => some d
        | .inl st => if minOcc st.occ ≥ j then some st.design else none) ∧
    (∀ n t : Nat,
      (combinations t (List.range n)).Pairwise (List.Lex (· < ·))) ∧
    (∀ (images : List Nat) (j : Nat) (st : DState) (iocc : Nat) (c : List Nat),
      minOcc st.occ ≠ j → (∃ i ∈ c, iocc < st.occ.getD i 0) →
      designStep images j (.inl st) iocc c = .inl st) := by
  refine ⟨?_, ?_, ?_⟩
  · intro images n t j pre
    rw [genDesignCore, designRoundsLoop_eq_foldl]
    rfl
  · intro n t
    exact combinations_pairwise_lex t (List.pairwise_lt_range n)
  · exact designStep_rejects_over_cap

/-- Witness for `gen_design_round_enumeration`: the rejection clause at a
concrete state — in round `iocc = 0` a combination touching an image with
occurrence counter 1 is rejected, leaving the state unchanged. -/
theorem gen_design_round_enumeration_witness :
    designStep [5, 6, 7] 1 (.inl ⟨[1, 0, 0], ∅, [[5, 6]]⟩) 0 [0, 2] =
      .inl ⟨[1, 0, 0], ∅, [[5, 6]]⟩ :=
  gen_design_round_enumeration.2.2 [5, 6, 7] 1 ⟨[1, 0, 0], ∅, [[5, 6]]⟩ 0 [0, 2]
    (by decide) ⟨0, by decide, by decide⟩

/-- C2: the Design Builder either returns a design in which every candidate
image occurs at least `j` times, or returns the explicit failure value
(`none`, the source's `None`); it never returns a partial design.  Proved for
both `Get.gen_design`'s search (on any nodup candidate list) and
`generate.utils.get_design` (whose candidates are the indices `0..n-1`). -/
theorem design_builder_occurrence_floor :
    (∀ (images : List Nat) (n t j : Nat) (pre : Finset (Nat × Nat))
        (d : List (List Nat)), images.length = n → images.Nodup →
      genDesignCore images n t j pre = some d →
      ∀ im ∈ images, j ≤ (d.map fun tup => tup.count im).sum) ∧
    (∀ (n t j : Nat) (d : List (List Nat)), get_design n t j = some d →
      ∀ i, i < n → j ≤ (d.map fun cc => cc.count i).sum) :=
  ⟨fun _ _ _ _ _ _ hlen hnd h => genDesignCore_occ_floor hlen hnd h,
   fun _ _ _ _ h => get_design_occ_floor h⟩

/-- Witness for `design_builder_occurrence_floor`: in the design generated
for 4 candidate images with `j = 1`, image `2` occurs at least once. -/
theorem design_builder_occurrence_floor_witness :
    1 ≤ ([[0, 1], [2, 3]].map fun tup => tup.count 2).sum :=
  design_builder_occurrence_floor.1 (List.range 4) 4 2 1 ∅ [[0, 1], [2, 3]]
    (by decide) (by decide) (by decide) 2 (by decide)

/-- C7: determinism of the Design Builder.  The only randomness in
`Get.gen_design` before the search is `np.random.shuffle`; the search itself
consumes no randomness.  Two runs whose shuffles produce the same candidate
image ordering (here with an empty exclusion set, as the claim states) yield
identical tuple sequences. -/
theorem gen_design_deterministic (s1 s2 : List Nat → List Nat)
    (images : List Nat) (n t j : Nat) (h : s1 images = s2 images) :
    gen_design s1 images n t j ∅ = gen_design s2 images n t j ∅ := by
  rw [gen_design, gen_design, h]

/-- Witness for `gen_design_deterministic`: two syntactically different
shuffle outcomes that agree on the candidate ordering give the same design. -/
theorem gen_design_deterministic_witness :
    gen_design id [3, 1, 4, 9] 4 2 1 ∅ =
      gen_design (fun l => l.reverse.reverse) [3, 1, 4, 9] 4 2 1 ∅ :=
  gen_design_deterministic id (fun l => l.reverse.reverse) [3, 1, 4, 9] 4 2 1
    (by decide)

/-- C3: the claim says `_get_preexisting_pairs` returns exactly the
canonicalized pairs among the candidates that have a record in the persisted
pair store (the store `register_task` writes into).  The source scans
`IMAGE_TABLE` instead of `PAIR_TABLE` (db.py line 66); image rows carry no
`metadata:im_id1`/`metadata:im_id2` cells, so the scan never yields a pair
record: after registering a task containing the tuple `(A, B)` (IDs `[10]`
and `[11]`), the function still returns the empty set, while the pair store
does hold the `(A, B)` record. -/
theorem get_preexisting_pairs_scans_image_table :
    get_preexisting_pairs
        (register_task_pairs
          ⟨[⟨[10], [(metadata_url, [20]), (metadata_is_active, [1])]⟩,
            ⟨[11], [(metadata_url, [21]), (metadata_is_active, [1])]⟩], []⟩
          [30] [31] [(0, [[[10], [11]]])])
        [[10], [11]] = ∅ ∧
    preexisting_pairs_claim
        (register_task_pairs
          ⟨[⟨[10], [(metadata_url, [20]), (metadata_is_active, [1])]⟩,
            ⟨[11], [(metadata_url, [21]), (metadata_is_active, [1])]⟩], []⟩
          [30] [31] [(0, [[[10], [11]]])])
        [[10], [11]] = {([10], [11])} := by
  decide

/-- C5: the Sampling Allocator fails with `None` (here `.insufficient`,
leaving the table untouched) whenever fewer active images match the
predicate than requested, and any successful return carries exactly `n`
distinct identifiers drawn from the active matching pool; in the spec's
scenario (100 active images, `n = 10`, all surplus credits zero) the run
succeeds with exactly 10 distinct identifiers from the pool. -/
theorem get_n_images_contract :
    (∀ (fuel n : Nat) (tbl : List (Nat × SImage)) (accept : Nat → Bool)
        (isPractice : Bool), (activePool tbl).length < n →
      get_n_images fuel n tbl accept isPractice = .insufficient tbl) ∧
    (∀ (fuel n : Nat) (tbl : List (Nat × SImage)) (accept : Nat → Bool)
        (isPractice : Bool) (ids : Finset Nat) (tbl2 : List (Nat × SImage)),
      get_n_images fuel n tbl accept isPractice = .ok ids tbl2 →
      ids.card = n ∧ ∀ im ∈ ids, im ∈ activePool tbl) ∧
    (get_n_images 20 10 scenarioTable (fun _ => true) false =
        .ok scenarioResult scenarioTable ∧
      scenarioResult.card = 10 ∧
      ∀ im ∈ scenarioResult, im ∈ activePool scenarioTable) := by
  refine ⟨?_, ?_, get_n_images_scenario_calc, by decide, by decide⟩
  · intro fuel n tbl accept isPractice h
    rw [get_n_images, if_pos h]
  · intro fuel n tbl accept isPractice ids tbl2 h
    rw [get_n_images] at h
    split at h
    · cases h
    case isFalse hc =>
      have hn : n ≤ (activePool tbl).length := le_of_not_lt hc
      split at h
      · cases h
      case h_2 p heq =>
        injection h with h1 h2
        subst h1
        exact getNImagesLoop_ok hn fuel 0 ∅ tbl
          (by simp) (by simp) (by rw [heq])

/-- Witness for `get_n_images_contract`: a pool with a single matching
active image cannot satisfy a request for two, and the allocator reports
insufficiency with the table unchanged. -/
theorem get_n_images_contract_witness :
    get_n_images 3 2 [(5, ⟨true, false, 0⟩)] (fun _ => true) false =
      .insufficient [(5, ⟨true, false, 0⟩)] :=
  get_n_images_contract.1 3 2 [(5, ⟨true, false, 0⟩)] (fun _ => true) false
    (by decide)

/-- C6 (counterexample): the claim says that for a practice task surplus
credit is neither gating acceptance nor being modified.  In the source the
practice branch falls through to the surplus check, so a practice call still
decrements a positive surplus: with one active image of surplus 1, a
practice request for one image returns the image *and* lowers its surplus to
0. -/
theorem practice_decrements_surplus :
    get_n_images 5 1 [(7, ⟨true, true, 1⟩)] (fun _ => true) true =
      .ok {7} [(7, ⟨true, true, 0⟩)] ∧
    surplusOf [(7, ⟨true, true, 0⟩)] 7 ≠ surplusOf [(7, ⟨true, true, 1⟩)] 7 := by
  decide

/-- C6 (amended): for a real task, an image whose surplus credit is positive
when it passes the acceptance draw is not added to the result and its credit
is decremented instead; for a practice task the surplus does not gate
acceptance (the image is always added), but a positive surplus credit is
still decremented. -/
theorem sampling_surplus_gating :
    (∀ (im : Nat) (images : Finset Nat) (tbl : List (Nat × SImage)),
      0 < surplusOf tbl im →
      sampleStep false im images tbl = (images, dec_surplus tbl im)) ∧
    (∀ (im : Nat) (images : Finset Nat) (tbl : List (Nat × SImage)),
      sampleStep true im images tbl =
        (insert im images,
          if surplusOf tbl im ≤ 0 then tbl else dec_surplus tbl im)) := by
  constructor
  · intro im images tbl hs
    rw [sampleStep]
    simp [not_le.mpr hs]
  · intro im images tbl
    rw [sampleStep]
    by_cases hs : surplusOf tbl im ≤ 0
    · simp [hs, Finset.insert_idem]
    · simp [hs]

/-- Witness for `sampling_surplus_gating`: a real-task draw on an image with
surplus 2 skips the image and decrements the credit. -/
theorem sampling_surplus_gating_witness :
    sampleStep false 3 ∅ [(3, ⟨true, true, 2⟩)] =
      (∅, dec_surplus [(3, ⟨true, true, 2⟩)] 3) :=
  sampling_surplus_gating.1 3 ∅ [(3, ⟨true, true, 2⟩)] (by decide)

/-- C10: after `Set.activate_images`, every active image row — previously
active ones included — has its sampling-surplus counter equal to its
times-seen counter, because `_reset_sampling_counts` rescans all active
images. -/
theorem activate_images_resets_all_active (tbl : List (Nat × ImRow))
    (ids : List Nat) (k : Nat) (r : ImRow)
    (hmem : (k, r) ∈ activate_images tbl ids) (hact : r.active = true) :
    r.surplus = r.timesSeen := by
  rw [activate_images, reset_sampling_counts] at hmem
  obtain ⟨⟨k0, r0⟩, hm0, heq⟩ := List.mem_map.mp hmem
  by_cases h : r0.active
  · rw [if_pos h] at heq
    injection heq with h1 h2
    subst h2
    rfl
  · rw [if_neg h] at heq
    injection heq with h1 h2
    subst h2
    exact absurd hact h

/-- Witness for `activate_images_resets_all_active`: activating image 2 also
resets the surplus of the already-active image 1 to its times-seen count. -/
theorem activate_images_resets_all_active_witness :
    (⟨true, 5, 5⟩ : ImRow).surplus = (⟨true, 5, 5⟩ : ImRow).timesSeen :=
  activate_images_resets_all_active
    [(1, ⟨true, 5, 0⟩), (2, ⟨false, 3, 1⟩)] [2] 1 ⟨true, 5, 5⟩
    (by decide) (by decide)

/-- C8 (counterexample): the claim says the multiset of images across all
assembled blocks (keep and reject together) equals the multiset of images in
the source design.  `Get.gen_task` chunks the *whole* shuffled tuple list
once into the keep blocks and once again into the reject blocks, so the
blocks together carry every design image twice: for the one-tuple design
`[(1, 2)]` the assembled blocks contain `{1, 2, 1, 2}`, not `{1, 2}`. -/
theorem gen_task_blocks_double_images :
    blockImages (gen_task_blocks [[1, 2]] 1 1 "p" [0] [0] [[0, 1]] [[0, 1]]
        false []) = (([1, 2] ++ [1, 2] : List Nat) : Multiset Nat) ∧
    blockImages (gen_task_blocks [[1, 2]] 1 1 "p" [0] [0] [[0, 1]] [[0, 1]]
        false []) ≠ (([1, 2] : List Nat) : Multiset Nat) := by
  decide

/-- C8 (amended): the multiset of images contained across all assembled
blocks equals exactly *two* copies of the multiset of images in the source
design's tuple list — one contributed by the keep blocks and one by the
reject blocks — with no image of either copy dropped or duplicated.  The
shuffle outcomes (`kperm`/`kinners`, `rperm`/`rinners`, `segPerm`) are
arbitrary permutations. -/
theorem gen_task_blocks_image_multiset {image_tuples : List (List Nat)}
    {n_keep_blocks n_reject_blocks : Nat} (prompt : String)
    {kperm rperm : List Nat} {kinners rinners : List (List Nat)}
    (random_segment_order : Bool) {segPerm : List Nat}
    (hnk : 0 < n_keep_blocks) (hnr : 0 < n_reject_blocks)
    (hkp : kperm.Perm (List.range image_tuples.length))
    (hrp : rperm.Perm (List.range image_tuples.length))
    (hki : List.Forall₂ (fun tup σ => σ.Perm (List.range tup.length))
      (kperm.map fun i => image_tuples.getD i []) kinners)
    (hri : List.Forall₂ (fun tup σ => σ.Perm (List.range tup.length))
      (rperm.map fun i => image_tuples.getD i []) rinners)
    (hsp : random_segment_order = true →
      segPerm.Perm (List.range (n_keep_blocks + n_reject_blocks))) :
    blockImages (gen_task_blocks image_tuples n_keep_blocks n_reject_blocks
        prompt kperm rperm kinners rinners random_segment_order segPerm) =
      (image_tuples.flatten : Multiset Nat) + ↑image_tuples.flatten := by
  have hk := shuffle_tuples_flatten_perm hkp hki
  have hr := shuffle_tuples_flatten_perm hrp hri
  simp only [gen_task_blocks]
  have hbase : blockImages (interleave
      (((chunks (shuffle_tuples kperm kinners image_tuples).1
            n_keep_blocks).zip
        (chunks (shuffle_tuples kperm kinners image_tuples).2
            n_keep_blocks)).map
        fun kt => ⟨kt.1, kt.1.map fun x =>
            x.map (global_image_idx_map image_tuples), KEEP_BLOCK,
          DEF_KEEP_BLOCK_INSTRUCTIONS, prompt, kt.2⟩)
      (((chunks (shuffle_tuples rperm rinners image_tuples).1
            n_reject_blocks).zip
        (chunks (shuffle_tuples rperm rinners image_tuples).2
            n_reject_blocks)).map
        fun rt => ⟨rt.1, rt.1.map fun x =>
            x.map (global_image_idx_map image_tuples), REJECT_BLOCK,
          DEF_REJECT_BLOCK_INSTRUCTIONS, prompt, rt.2⟩)) =
      (image_tuples.flatten : Multiset Nat) + ↑image_tuples.flatten := by
    rw [blockImages_perm (interleave_perm _ _), blockImages_append,
      catBlocks_images hnk (global_image_idx_map image_tuples) KEEP_BLOCK
        DEF_KEEP_BLOCK_INSTRUCTIONS prompt,
      catBlocks_images hnr (global_image_idx_map image_tuples) REJECT_BLOCK
        DEF_REJECT_BLOCK_INSTRUCTIONS prompt,
      Multiset.coe_eq_coe.mpr hk, Multiset.coe_eq_coe.mpr hr]
  cases random_segment_order with
  | false => simpa using hbase
  | true =>
    rw [if_pos rfl, blocks_shuffle_images (by
      rw [(interleave_perm _ _).length_eq, List.length_append,
        catBlocks_length, catBlocks_length]
      exact hsp rfl)]
    exact hbase

/-- Witness for `gen_task_blocks_image_multiset`: the identity shuffles on
the one-tuple design `[(1, 2)]` with one keep and one reject block. -/
theorem gen_task_blocks_image_multiset_witness :
    blockImages (gen_task_blocks [[1, 2]] 1 1 "p" [0] [0] [[0, 1]] [[0, 1]]
        true [0, 1]) =
      (([1, 2] : List Nat) : Multiset Nat) + ↑([1, 2] : List Nat) :=
  gen_task_blocks_image_multiset "p" true (by decide) (by decide) (by decide)
    (by decide) (.cons (by decide) .nil) (.cons (by decide) .nil)
    (fun _ => by decide)

/-- C9: for any candidate pool of 6 distinct images, `t = 2`, `j = 1` and an
empty exclusion set, the Design Builder returns exactly 3 tuples — the three
consecutive pairs of the candidate ordering — which are 2-element, pairwise
disjoint, and jointly cover all 6 images with no unordered pair repeated (the
index-level conjunct checks disjointness, coverage and pair-uniqueness on the
tuple shape every such design takes). -/
theorem gen_design_six_image_scenario :
    (∀ images : List Nat, images.Nodup → images.length = 6 →
      genDesignCore images 6 2 1 ∅ =
        some [[images.getD 0 0, images.getD 1 0],
              [images.getD 2 0, images.getD 3 0],
              [images.getD 4 0, images.getD 5 0]] ∧
      [[images.getD 0 0, images.getD 1 0],
       [images.getD 2 0, images.getD 3 0],
       [images.getD 4 0, images.getD 5 0]].flatten = images) ∧
    (genDesignCore (List.range 6) 6 2 1 ∅ = some [[0, 1], [2, 3], [4, 5]] ∧
      [[0, 1], [2, 3], [4, 5]].length = 3 ∧
      (∀ tup ∈ [[0, 1], [2, 3], [4, 5]], tup.length = 2) ∧
      List.Pairwise (fun t1 t2 : List Nat => ∀ x ∈ t1, x ∉ t2)
        [[0, 1], [2, 3], [4, 5]] ∧
      (∀ x ∈ List.range 6, ∃ tup ∈ [[0, 1], [2, 3], [4, 5]], x ∈ tup) ∧
      ([[0, 1], [2, 3], [4, 5]].map fun tup =>
        (pairs2 tup).map fun q => pair_to_tuple q.1 q.2).flatten.Nodup) := by
  refine ⟨?_, by decide⟩
  intro images hnd hlen
  constructor
  · rw [genDesignCore_relabel hnd hlen,
      show genDesignCore (List.range 6) 6 2 1 ∅ =
        some [[0, 1], [2, 3], [4, 5]] from by decide]
    rfl
  · apply List.ext_getElem
    · simpa using hlen.symm
    · intro i h1 h2
      have h6 : i < 6 := by simpa using h1
      interval_cases i <;>
        simp [List.getD, List.getElem?_eq_getElem h2]

/-- Witness for `gen_design_six_image_scenario`: the pool
`[10, 20, 30, 40, 50, 60]`. -/
theorem gen_design_six_image_scenario_witness :
    genDesignCore [10, 20, 30, 40, 50, 60] 6 2 1 ∅ =
        some [[10, 20], [30, 40], [50, 60]] ∧
      [[10, 20], [30, 40], [50, 60]].flatten = [10, 20, 30, 40, 50, 60] :=
  gen_design_six_image_scenario.1 [10, 20, 30, 40, 50, 60]
    (by decide) (by decide)

end MTurk
